import Mathlib

/-!
Shallow embedding of the core of `src/summarizer.py` (text-summary-app):
sentence splitting, deduplication, frequency-based extractive selection,
word-window chunking, chunked abstractive orchestration, and the facade
`summarize_text`.  Python strings are modelled as `List Char`; Python ints
as `ℤ` (or `ℕ` where the source value is always a count); the external
generative backends as oracle functions passed in explicitly; a raised
exception as an `Except` error value (or `Option.none` for the per-chunk
oracle whose exceptions the source catches).
-/

abbrev Str := List Char

/-- Python `str.isspace` over the ASCII whitespace used by `str.split`,
`str.strip` and the regex class `\s` on the texts in scope. -/
def isWS (c : Char) : Bool :=
  c = ' ' || c = '\t' || c = '\n' || c = '\r' || c = '\x0b' || c = '\x0c'

/-- the lookbehind class `[.!?\n]` of the sentence-splitting regex. -/
def isTerm (c : Char) : Bool :=
  c = '.' || c = '!' || c = '?' || c = '\n'

/-- sentence-final punctuation (the non-whitespace terminators). -/
def isPunct (c : Char) : Bool :=
  c = '.' || c = '!' || c = '?'

/-- the regex class `\w` (ASCII range, as exercised by the texts in scope). -/
def isWordChar (c : Char) : Bool :=
  c.isAlpha || c.isDigit || c = '_'

/-- Python `str.strip()`: drop whitespace from both ends. -/
def strip (cs : Str) : Str :=
  ((cs.dropWhile isWS).reverse.dropWhile isWS).reverse

/-- Python `sep.join(xs)`. -/
def joinSep (sep : Str) : List Str → Str
  | [] => []
  | [s] => s
  | s :: t :: rest => s ++ sep ++ joinSep sep (t :: rest)

/-- state machine for `re.split(r"(?<=[.!?\n])\s+", text)`.
`inRun` says the scanner is inside the whitespace run of a match (the
greedy `\s+`); `prev` is the character before the scan position (the
lookbehind); `acc` is the current piece, reversed.  A match begins at a
whitespace character whose predecessor is a terminator, and consumes the
whole whitespace run; pieces are the text between matches, in order,
including a leading/trailing empty piece when a match touches an end. -/
def sentGo : Bool → Char → Str → Str → List Str
  | _, _, acc, [] => [acc.reverse]
  | true, prev, acc, c :: rest =>
    if isWS c then sentGo true prev acc rest
    else sentGo false c (c :: acc) rest
  | false, prev, acc, c :: rest =>
    if isTerm prev && isWS c then acc.reverse :: sentGo true ' ' [] rest
    else sentGo false c (c :: acc) rest

/-- `re.split(r"(?<=[.!?\n])\s+", text)`: position 0 has no lookbehind,
modelled by a non-terminator `prev`. -/
def sentSplit (cs : Str) : List Str :=
  sentGo false ' ' [] cs

/-- the loop of `_deduplicate_sentences`: trim each unit, skip empties,
keep a unit only when its lowercased text is unseen. -/
def dedupUnits (seen : List Str) : List Str → List Str
  | [] => []
  | s :: rest =>
    let norm := strip s
    if norm.isEmpty then dedupUnits seen rest
    else
      let key := norm.map Char.toLower
      if key ∈ seen then dedupUnits seen rest
      else norm :: dedupUnits (key :: seen) rest

/-- `_deduplicate_sentences` (summarizer.py:51-66). -/
def _deduplicate_sentences (text : Str) : Str :=
  joinSep [' '] (dedupUnits [] (sentSplit text))

/-- helper of `wordsBy`: scan accumulating the current run (reversed). -/
def wordsByAux (p : Char → Bool) : Str → Str → List Str
  | [], acc => if acc.isEmpty then [] else [acc.reverse]
  | c :: rest, acc =>
    if p c then wordsByAux p rest (c :: acc)
    else if acc.isEmpty then wordsByAux p rest []
    else acc.reverse :: wordsByAux p rest []

/-- maximal runs of characters satisfying `p`, in order. -/
def wordsBy (p : Char → Bool) (cs : Str) : List Str :=
  wordsByAux p cs []

/-- Python `text.split()`: maximal runs of non-whitespace. -/
def splitWS (cs : Str) : List Str :=
  wordsBy (fun c => !isWS c) cs

/-- `re.findall(r"\w+", s.lower())`: word tokens of the lowercased text. -/
def tokenize (cs : Str) : List Str :=
  wordsBy isWordChar (cs.map Char.toLower)

/-- one update step of the Python dict build `freq[w] = freq.get(w, 0) + 1`,
on an association list. -/
def bump : List (Str × ℕ) → Str → List (Str × ℕ)
  | [], w => [(w, 1)]
  | kv :: rest, w =>
    if kv.1 = w then (kv.1, kv.2 + 1) :: rest else kv :: bump rest w

/-- the frequency table of `_summarize_extractive` (summarizer.py:156-160):
count every token, skipping tokens of length ≤ 2. -/
def buildFreq (ts : List Str) : List (Str × ℕ) :=
  ts.foldl (fun f w => if w.length ≤ 2 then f else bump f w) []

/-- Python `freq.get(w, 0)`: first-match association lookup, 0 when the
key is absent (`bump` keeps keys unique, so first match is the match). -/
def lookupD : List (Str × ℕ) → Str → ℕ
  | [], _ => 0
  | kv :: rest, w => if kv.1 = w then kv.2 else lookupD rest w

/-- the document-wide frequency table over the whole text. -/
def freqOf (text : Str) : List (Str × ℕ) :=
  buildFreq (tokenize text)

/-- the trimmed, non-empty sentence list of `_summarize_extractive`
(summarizer.py:149-150). -/
def sentencesOf (text : Str) : List Str :=
  ((sentSplit text).map strip).filter (fun s => !s.isEmpty)

/-- a scored sentence.  The source stores the float
`sum(freq.get(w, 0) for w in sw) / len(sw) ** 0.8`; we keep the exact
numerator `num` (the frequency sum) and the exact token count `cnt`, so
that the score is the real number `num / cnt ^ 0.8` (see `rscore`) and
score comparisons are the decidable `geB` below. -/
structure Scored where
  num : ℕ
  cnt : ℕ
  sent : Str
deriving DecidableEq

/-- the real-valued sentence score `num / cnt ** 0.8` of summarizer.py:168,
idealizing Python float arithmetic as real arithmetic. -/
noncomputable def rscore (x : Scored) : ℝ :=
  (x.num : ℝ) / (x.cnt : ℝ) ^ (0.8 : ℝ)

/-- decidable comparison `rscore y ≤ rscore x`, by raising both sides to
the 5th power (`geB_iff_rscore_le` proves the equivalence). -/
def geB (x y : Scored) : Bool :=
  decide (y.num ^ 5 * x.cnt ^ 4 ≤ x.num ^ 5 * y.cnt ^ 4)

/-- one insertion step of a stable descending sort: `x` goes in front of
the first element whose score it reaches.  Elements with a score equal to
`x`'s that are already in place keep their earlier position only when they
stand in front of the insertion point; since `geB x y` holds on equal
scores, `x` is placed before equal-scored elements coming from later
insertions — together with `sortDesc` processing the list back to front
this reproduces the stable descending order of Python
`list.sort(key=lambda x: x[0], reverse=True)` (summarizer.py:172). -/
def insertDesc (x : Scored) : List Scored → List Scored
  | [] => [x]
  | y :: ys => if geB x y then x :: y :: ys else y :: insertDesc x ys

/-- stable descending sort by score (summarizer.py:172). -/
def sortDesc : List Scored → List Scored
  | [] => []
  | x :: xs => insertDesc x (sortDesc xs)

/-- Python `len(s.split())`. -/
def wordCount (s : Str) : ℕ :=
  (splitWS s).length

/-- total word count of a selection. -/
def totalWC (l : List Str) : ℕ :=
  (l.map wordCount).sum

/-- the greedy selection loop of `_summarize_extractive`
(summarizer.py:173-181): accept while the running total plus the sentence
fits in `maxLen`, or unconditionally when nothing was accepted yet; stop
as soon as the running total reaches `maxLen`. -/
def selectLoop (maxLen : ℤ) : List Scored → ℤ → List Str
  | [], _ => []
  | x :: xs, total =>
    let w : ℤ := wordCount x.sent
    if total + w ≤ maxLen ∨ total = 0 then
      if maxLen ≤ total + w then [x.sent]
      else x.sent :: selectLoop maxLen xs (total + w)
    else if maxLen ≤ total then []
    else selectLoop maxLen xs total

/-- the scored candidates (summarizer.py:163-169): sentences whose token
list is empty are skipped. -/
def candidates (text : Str) : List Scored :=
  (sentencesOf text).filterMap (fun s =>
    let sw := tokenize s
    if sw.isEmpty then none
    else some ⟨(sw.map (lookupD (freqOf text))).sum, sw.length, s⟩)

/-- the sentences selected by the greedy loop, in selection order. -/
def selectedOf (text : Str) (maxLen : ℤ) : List Str :=
  selectLoop maxLen (sortDesc (candidates text)) 0

/-- `_summarize_extractive` (summarizer.py:144-188).  `minLength` is a
parameter of the source function but is never read by it. -/
def _summarize_extractive (text : Str) (_minLength maxLength : ℤ) : Str :=
  let sents := sentencesOf text
  if sents.isEmpty then []
  else
    let selected := selectedOf text maxLength
    let selected := if selected.isEmpty then sents.take 3 else selected
    _deduplicate_sentences (joinSep [' '] selected)

/-- `_chunk_text` (summarizer.py:40-48).  `range(0, len(words), step)` for
`step ≥ 1` is the set of multiples of `step` below `len(words)`, in order;
`max 1 (maxWords - overlapWords)` agrees with Python `max(1, ...)` also
when `overlapWords > maxWords`, since truncated subtraction then gives 0. -/
def _chunk_text (text : Str) (maxWords overlapWords : ℕ) : List Str :=
  ((List.range (splitWS text).length).filter
      (fun i => i % max 1 (maxWords - overlapWords) = 0)).filterMap (fun i =>
    if (strip (joinSep [' '] (((splitWS text).drop i).take maxWords))).isEmpty then none
    else some (joinSep [' '] (((splitWS text).drop i).take maxWords)))

/-- chunk-local maximum length (summarizer.py:84):
`max(20, min(max_length, int(c_words * 0.6)))`, idealizing the float
product `c_words * 0.6` as the exact value, whose truncation is
`3 * c_words / 5`. -/
def localMax (maxL : ℤ) (cw : ℕ) : ℤ :=
  max 20 (min maxL ((3 * (cw : ℤ)) / 5))

/-- chunk-local minimum length (summarizer.py:85-87). -/
def localMin (minL lmax : ℤ) : ℤ :=
  let m := max 5 (min minL (max (lmax - 40) 5))
  if lmax ≤ m then max 5 (lmax - 5) else m

/-- the first-two-sentences fallback of the per-chunk `except` handler
(summarizer.py:99-102): `" ".join(safe[:2]).strip()` over the raw regex
pieces. -/
def firstTwoSentences (c : Str) : Str :=
  strip (joinSep [' '] ((sentSplit c).take 2))

/-- the body of the per-chunk loop (summarizer.py:81-102).  The pipeline
call is the oracle `pipe chunk local_min local_max num_beams`, `none`
modelling a raised exception (`no_repeat_ngram_size` and `length_penalty`
are passed through unchanged and are folded into the oracle). -/
def chunkOutput (pipe : Str → ℤ → ℤ → ℤ → Option Str) (minL maxL beams : ℤ)
    (c : Str) : Str :=
  let cw := (splitWS c).length
  let lmax := localMax maxL cw
  let lmin := localMin minL lmax
  match pipe c lmin lmax beams with
  | some res => strip res
  | none => firstTwoSentences c

/-- `_summarize_abstractive_transformers` (summarizer.py:69-118): chunk,
summarize each chunk with local bounds (falling back on failure), join
with blank lines, optionally refine the combined text (keeping it on
failure), and deduplicate. -/
def _summarize_abstractive_transformers (pipe : Str → ℤ → ℤ → ℤ → Option Str)
    (text : Str) (minL maxL beams : ℤ) : Str :=
  let chunks := _chunk_text text 450 60
  let outputs := chunks.map (chunkOutput pipe minL maxL beams)
  let combined := joinSep ['\n', '\n'] outputs
  let combined :=
    if 1 < outputs.length then
      match pipe combined minL maxL (max 4 beams) with
      | some r => strip r
      | none => combined
    else combined
  _deduplicate_sentences combined

/-- `AbstractiveProvider` (summarizer.py:10-12). -/
inductive Provider
  | openai
  | transformers
deriving DecidableEq

/-- the Python exceptions surfacing from `summarize_text`. -/
inductive PyError
  | valueError (msg : Str)
  | runtimeError (msg : Str)
  | backendFailure
deriving DecidableEq

/-- the external collaborators of the facade: the transformers pipeline
(exceptions caught per call site), the `OPENAI_API_KEY` environment
variable, and the OpenAI chat-completion call (whose failures propagate). -/
structure Backends where
  pipe : Str → ℤ → ℤ → ℤ → Option Str
  apiKey : Option Str
  oai : Str → ℤ → ℤ → Except PyError Str

/-- `_summarize_abstractive_openai` (summarizer.py:121-141): fail fast
without a key, otherwise return the stripped completion text
(`temperature` and `model` are passed through unchanged and are folded
into the oracle). -/
def _summarize_abstractive_openai (B : Backends) (text : Str) (minL maxL : ℤ) :
    Except PyError Str :=
  match B.apiKey with
  | none => .error (.runtimeError "OPENAI_API_KEY 환경 변수가 설정되지 않았습니다.".toList)
  | some _ => (B.oai text minL maxL).map strip

/-- `summarize_text` (summarizer.py:191-230). -/
def summarize_text (B : Backends) (text mode : Str) (minL maxL : ℤ)
    (provider : Option Provider) (beams : ℤ) : Except PyError Str :=
  let t := strip text
  if t.isEmpty then .ok []
  else if mode = "extractive".toList then .ok (_summarize_extractive t minL maxL)
  else if mode = "abstractive".toList then
    if provider = some .openai then
      (_summarize_abstractive_openai B t minL maxL).map _deduplicate_sentences
    else .ok (_summarize_abstractive_transformers B.pipe t minL maxL beams)
  else .error (.valueError ("Unknown mode: ".toList ++ mode))

/-- the deduplication step as the spec words it: keep the first unit of
each normalized key and drop every later unit with the same key, in order
(stated over already trimmed, non-empty units). -/
def specDedup : List Str → List Str
  | [] => []
  | v :: rest =>
    v :: specDedup (rest.filter (fun w => w.map Char.toLower ≠ v.map Char.toLower))
termination_by us => us.length
decreasing_by
  simp only [List.length_cons]
  exact Nat.lt_succ_of_le (List.length_filter_le _ _)

/-- no split point inside the scan: reading `cs` with lookbehind `prev`
never meets a terminator-followed-by-whitespace pair (the splitter passes
such a stretch through unchanged). -/
def okRun : Char → Str → Bool
  | _, [] => true
  | prev, c :: cs => !(isTerm prev && isWS c) && okRun c cs

section Lemmas

/-- every word produced by `wordsByAux` is non-empty and all its
characters satisfy the run predicate. -/
theorem wordsByAux_sound (p : Char → Bool) :
    ∀ (cs acc : Str), (∀ c ∈ acc, p c = true) →
      ∀ w ∈ wordsByAux p cs acc, w ≠ [] ∧ ∀ c ∈ w, p c = true := by
  intro cs
  induction cs with
  | nil =>
    intro acc hacc w hw
    by_cases h : acc.isEmpty
    · simp [wordsByAux, h] at hw
    · simp [wordsByAux, h] at hw
      subst hw
      refine ⟨by simpa [List.isEmpty_iff] using h, ?_⟩
      intro c hc
      exact hacc c (List.mem_reverse.mp hc)
  | cons c rest ih =>
    intro acc hacc w hw
    by_cases hp : p c
    · rw [wordsByAux, if_pos hp] at hw
      exact ih (c :: acc) (by
        intro d hd
        rcases List.mem_cons.mp hd with h | h
        · exact h ▸ hp
        · exact hacc d h) w hw
    · rw [wordsByAux, if_neg hp] at hw
      by_cases he : acc.isEmpty
      · rw [if_pos he] at hw
        exact ih [] (by simp) w hw
      · rw [if_neg he] at hw
        rcases List.mem_cons.mp hw with h | h
        · subst h
          refine ⟨by simpa [List.isEmpty_iff] using he, ?_⟩
          intro d hd
          exact hacc d (List.mem_reverse.mp hd)
        · exact ih [] (by simp) w h

/-- words of `text.split()` are non-empty and whitespace-free. -/
theorem splitWS_sound (t : Str) :
    ∀ w ∈ splitWS t, w ≠ [] ∧ ∀ c ∈ w, isWS c = false := by
  intro w hw
  have := wordsByAux_sound (fun c => !isWS c) t [] (by simp) w hw
  exact ⟨this.1, fun c hc => by simpa using this.2 c hc⟩

/-- a character of a member unit is a character of the join. -/
theorem mem_joinSep (sep : Str) :
    ∀ (l : List Str) (w : Str), w ∈ l → ∀ c ∈ w, c ∈ joinSep sep l := by
  intro l
  induction l with
  | nil => intro w hw; cases hw
  | cons s rest ih =>
    intro w hw c hc
    cases rest with
    | nil =>
      rcases List.mem_cons.mp hw with h | h
      · subst h; simpa [joinSep] using hc
      · cases h
    | cons t rest' =>
      rw [joinSep]
      rcases List.mem_cons.mp hw with h | h
      · subst h
        simp [hc]
      · have := ih w h c hc
        simp [this]

/-- `strip` yields the empty string exactly on all-whitespace input. -/
theorem strip_eq_nil_iff {t : Str} : strip t = [] ↔ ∀ c ∈ t, isWS c = true := by
  unfold strip
  rw [List.reverse_eq_nil_iff, List.dropWhile_eq_nil_iff]
  constructor
  · intro h c hc
    by_cases hmem : c ∈ t.dropWhile isWS
    · exact h c (List.mem_reverse.mpr hmem)
    · have hsplit := List.takeWhile_append_dropWhile (p := isWS) (l := t)
      have hc' : c ∈ t.takeWhile isWS ++ t.dropWhile isWS := by rw [hsplit]; exact hc
      rcases List.mem_append.mp hc' with h' | h'
      · exact List.mem_takeWhile_imp h'
      · exact absurd h' hmem
  · intro h c hc
    exact h c ((List.dropWhile_suffix isWS).subset (List.mem_reverse.mp hc))

end Lemmas

/-- C8: for every input text that is empty or all-whitespace after
trimming, `summarize_text` returns the empty string immediately, for every
mode, every provider and every backend configuration — in particular the
result does not depend on the backends, so no backend call is made, and no
error is raised. -/
theorem summarize_text_empty_input (B : Backends) (text mode : Str)
    (minL maxL : ℤ) (provider : Option Provider) (beams : ℤ)
    (h : strip text = []) :
    summarize_text B text mode minL maxL provider beams = .ok [] := by
  unfold summarize_text
  simp [h]

theorem summarize_text_empty_input_witness :
    strip "   ".toList = [] ∧
      summarize_text ⟨fun _ _ _ _ => none, none, fun _ _ _ => .error .backendFailure⟩
        "   ".toList "abstractive".toList 60 120 (some .openai) 4 = .ok [] :=
  ⟨by decide, summarize_text_empty_input _ _ _ _ _ _ _ (by decide)⟩

/-- C9: for every mode other than "extractive" and "abstractive" (and
non-empty trimmed input, which the facade checks first), `summarize_text`
fails with the `ValueError` (Python's invalid-argument error class)
`"Unknown mode: <mode>"`, whose message contains the bad mode string. -/
theorem summarize_text_unknown_mode (B : Backends) (text mode : Str)
    (minL maxL : ℤ) (provider : Option Provider) (beams : ℤ)
    (hne : strip text ≠ []) (h1 : mode ≠ "extractive".toList)
    (h2 : mode ≠ "abstractive".toList) :
    summarize_text B text mode minL maxL provider beams =
      .error (.valueError ("Unknown mode: ".toList ++ mode)) ∧
    mode <:+: "Unknown mode: ".toList ++ mode := by
  refine ⟨?_, ⟨"Unknown mode: ".toList, [], by simp⟩⟩
  have h0 : ((strip text).isEmpty) = false := by
    rw [List.isEmpty_eq_false]; exact hne
  simp only [summarize_text, h0, Bool.false_eq_true, if_false, if_neg h1, if_neg h2]

theorem summarize_text_unknown_mode_witness :
    strip "hello there.".toList ≠ [] ∧
      summarize_text ⟨fun _ _ _ _ => none, none, fun _ _ _ => .error .backendFailure⟩
        "hello there.".toList "unknown".toList 60 120 none 4 =
        .error (.valueError ("Unknown mode: unknown".toList)) :=
  ⟨by decide, by
    have h := (summarize_text_unknown_mode
      ⟨fun _ _ _ _ => none, none, fun _ _ _ => .error .backendFailure⟩
      "hello there.".toList "unknown".toList 60 120 none 4
      (by decide) (by decide) (by decide)).1
    have hmsg : "Unknown mode: ".toList ++ "unknown".toList
        = "Unknown mode: unknown".toList := by decide
    rw [hmsg] at h
    exact h⟩

/-- C7: in the chunked abstractive path, a failing generative call on a
chunk is never propagated: the per-chunk output list keeps one entry per
chunk, and the entry of a chunk on which the oracle fails (returns `none`,
modelling a raised exception) is the chunk's first two sentence units. -/
theorem chunk_failure_fallback (pipe : Str → ℤ → ℤ → ℤ → Option Str)
    (minL maxL beams : ℤ) (text c : Str) (i : ℕ)
    (hc : (_chunk_text text 450 60)[i]? = some c)
    (hfail : pipe c (localMin minL (localMax maxL (splitWS c).length))
        (localMax maxL (splitWS c).length) beams = none) :
    ((_chunk_text text 450 60).map (chunkOutput pipe minL maxL beams)).length
        = (_chunk_text text 450 60).length ∧
    ((_chunk_text text 450 60).map (chunkOutput pipe minL maxL beams))[i]?
        = some (firstTwoSentences c) := by
  refine ⟨List.length_map _ _, ?_⟩
  rw [List.getElem?_map, hc]
  simp [chunkOutput, hfail]

theorem chunk_failure_fallback_witness :
    (_chunk_text "Cats purr. Dogs bark.".toList 450 60)[0]?
        = some "Cats purr. Dogs bark.".toList ∧
    ((_chunk_text "Cats purr. Dogs bark.".toList 450 60).map
        (chunkOutput (fun _ _ _ _ => none) 60 120 4))[0]? =
      some (firstTwoSentences "Cats purr. Dogs bark.".toList) :=
  ⟨by decide,
    (chunk_failure_fallback (fun _ _ _ _ => none) 60 120 4
      "Cats purr. Dogs bark.".toList "Cats purr. Dogs bark.".toList 0
      (by decide) rfl).2⟩

/-- C6: with `max_words = 450` and `overlap_words = 60` the chunker
advances by stride `390`: every word position of the input is covered by a
window that the chunker really emits (no gaps), consecutive windows (at
`i` and `i + 390`) share exactly the 60-word overlap segment — the last 60
words of the earlier window are the first 60 words of the later one — and
that shared segment has exactly 60 words whenever the earlier window is
full (`i + 450 ≤ n`), i.e. except possibly at the final, shorter window. -/
theorem chunker_coverage_and_overlap (text : Str) :
    (∀ p, p < (splitWS text).length → ∃ i, i % 390 = 0 ∧ i ≤ p ∧ p < i + 450 ∧
      joinSep [' '] (((splitWS text).drop i).take 450) ∈ _chunk_text text 450 60) ∧
    (∀ i, (((splitWS text).drop i).take 450).drop 390 =
      ((splitWS text).drop (i + 390)).take 60) ∧
    (∀ i, i + 450 ≤ (splitWS text).length →
      ((((splitWS text).drop i).take 450).drop 390).length = 60) := by
  refine ⟨?_, ?_, ?_⟩
  · intro p hp
    refine ⟨p / 390 * 390, Nat.mul_mod_left _ _, Nat.div_mul_le_self p 390, by omega, ?_⟩
    have hip : p / 390 * 390 ≤ p := Nat.div_mul_le_self p 390
    rw [_chunk_text]
    apply List.mem_filterMap.mpr
    refine ⟨p / 390 * 390, ?_, ?_⟩
    · apply List.mem_filter.mpr
      exact ⟨List.mem_range.mpr (lt_of_le_of_lt hip hp), by simp⟩
    · have hne : ((splitWS text).drop (p / 390 * 390)).take 450 ≠ [] := by
        simp only [ne_eq, List.take_eq_nil_iff, List.drop_eq_nil_iff]
        omega
      obtain ⟨w, hwmem⟩ := List.exists_mem_of_ne_nil _ hne
      have hw : w ∈ splitWS text :=
        List.drop_subset _ _ (List.take_subset _ _ hwmem)
      obtain ⟨hwne, hwchars⟩ := splitWS_sound text w hw
      obtain ⟨c, hcmem⟩ := List.exists_mem_of_ne_nil _ hwne
      have hcj : c ∈ joinSep [' '] (((splitWS text).drop (p / 390 * 390)).take 450) :=
        mem_joinSep _ _ _ hwmem c hcmem
      have hstr : strip (joinSep [' '] (((splitWS text).drop (p / 390 * 390)).take 450)) ≠ [] := by
        intro hnil
        have := strip_eq_nil_iff.mp hnil c hcj
        rw [hwchars c hcmem] at this
        cases this
      rw [if_neg (by simpa [List.isEmpty_iff] using hstr)]
  · intro i
    rw [List.drop_take, List.drop_drop]
  · intro i hle
    rw [List.drop_take, List.drop_drop]
    simp only [List.length_take, List.length_drop]
    omega

theorem chunker_coverage_and_overlap_witness :
    ∃ i, i % 390 = 0 ∧ i ≤ 2 ∧ 2 < i + 450 ∧
      joinSep [' '] (((splitWS "Cats purr. Dogs bark.".toList).drop i).take 450)
        ∈ _chunk_text "Cats purr. Dogs bark.".toList 450 60 :=
  (chunker_coverage_and_overlap "Cats purr. Dogs bark.".toList).1 2 (by decide)

/-- the dedup loop with an arbitrary seen set equals `specDedup` on the
trimmed non-empty units whose keys are unseen. -/
theorem dedupUnits_eq_specDedup (us : List Str) : ∀ seen,
    dedupUnits seen us =
      specDedup (((us.map strip).filter (fun v => !v.isEmpty)).filter
        (fun v => decide (v.map Char.toLower ∉ seen))) := by
  induction us with
  | nil => intro seen; simp [dedupUnits, specDedup]
  | cons u rest ih =>
    intro seen
    simp only [List.map_cons]
    by_cases h1 : (strip u).isEmpty
    · rw [List.filter_cons_of_neg (by simp [h1]),
        show dedupUnits seen (u :: rest) = dedupUnits seen rest by
          rw [dedupUnits]; simp [h1]]
      exact ih seen
    · rw [List.filter_cons_of_pos (by simp [h1])]
      by_cases h2 : (strip u).map Char.toLower ∈ seen
      · rw [List.filter_cons_of_neg (by simp [h2]),
          show dedupUnits seen (u :: rest) = dedupUnits seen rest by
            rw [dedupUnits]; simp [h1, h2]]
        exact ih seen
      · rw [List.filter_cons_of_pos (by simp [h2]),
          show dedupUnits seen (u :: rest)
              = strip u :: dedupUnits ((strip u).map Char.toLower :: seen) rest by
            rw [dedupUnits]; simp [h1, h2],
          specDedup]
        congr 1
        rw [ih ((strip u).map Char.toLower :: seen), List.filter_filter,
          List.filter_filter, List.filter_filter]
        apply congrArg specDedup
        apply List.filter_congr
        intro w _
        by_cases hk : w.map Char.toLower = (strip u).map Char.toLower <;>
          by_cases hs : w.map Char.toLower ∈ seen <;>
            simp [hk, hs, List.mem_cons]

/-- C5: the Deduplicator keeps, in order, exactly the first occurrence of
each unit under trim-and-lowercase normalization and drops later
case-insensitive duplicates (`specDedup` states this by removing, at each
kept unit, every later unit with the same key); in particular the
sentence sequence "A.", "b.", "A.", "c." yields "A. b. c.". -/
theorem dedup_keeps_first_occurrences :
    (∀ us : List Str, dedupUnits [] us =
      specDedup ((us.map strip).filter (fun v => !v.isEmpty))) ∧
    _deduplicate_sentences "A. b. A. c.".toList = "A. b. c.".toList := by
  refine ⟨fun us => ?_, by decide⟩
  have h := dedupUnits_eq_specDedup us []
  simpa using h

/-- invariant of the greedy loop: started strictly under budget, the
running total stays strictly under `maxLen` right up to (and excluding)
the last accepted sentence. -/
theorem selectLoop_dropLast_lt (maxLen : ℤ) :
    ∀ (ys : List Scored) (t : ℤ), t < maxLen →
      t + (totalWC (selectLoop maxLen ys t).dropLast : ℤ) < maxLen := by
  intro ys
  induction ys with
  | nil =>
    intro t ht
    simpa [selectLoop, totalWC] using ht
  | cons x xs ih =>
    intro t ht
    rw [selectLoop]
    by_cases hacc : t + (wordCount x.sent : ℤ) ≤ maxLen ∨ t = 0
    · rw [if_pos hacc]
      by_cases hbrk : maxLen ≤ t + (wordCount x.sent : ℤ)
      · rw [if_pos hbrk]
        simpa [totalWC] using ht
      · rw [if_neg hbrk]
        push_neg at hbrk
        cases hsub : selectLoop maxLen xs (t + (wordCount x.sent : ℤ)) with
        | nil => simpa [hsub, totalWC] using ht
        | cons a as =>
          rw [List.dropLast_cons₂]
          have := ih (t + (wordCount x.sent : ℤ)) hbrk
          rw [hsub] at this
          simp only [totalWC, List.map_cons, List.sum_cons] at this ⊢
          push_cast at this ⊢
          omega
    · rw [if_neg hacc]
      by_cases hstop : maxLen ≤ t
      · omega
      · rw [if_neg hstop]
        exact ih t ht

/-- the loop always accepts the head of a non-empty candidate list. -/
theorem selectLoop_cons_head (maxLen : ℤ) (x : Scored) (xs : List Scored) :
    ∃ rest, selectLoop maxLen (x :: xs) 0 = x.sent :: rest := by
  rw [selectLoop]
  rw [if_pos (Or.inr rfl)]
  by_cases hbrk : maxLen ≤ 0 + (wordCount x.sent : ℤ)
  · exact ⟨[], by rw [if_pos hbrk]⟩
  · exact ⟨selectLoop maxLen xs (0 + (wordCount x.sent : ℤ)), by rw [if_neg hbrk]⟩

/-- C2: the greedy selector always takes the first candidate (even when
that sentence alone exceeds the budget), the running word total strictly
before the last accepted sentence is below `max_length` (for any positive
budget), and the selection's total word count is at least the first
accepted sentence's word count. -/
theorem extractive_selector_budget (text : Str) (maxLen : ℤ) (hpos : 0 < maxLen) :
    (totalWC (selectedOf text maxLen).dropLast : ℤ) < maxLen ∧
    ∀ x xs, sortDesc (candidates text) = x :: xs →
      ∃ rest, selectedOf text maxLen = x.sent :: rest ∧
        wordCount x.sent ≤ totalWC (selectedOf text maxLen) := by
  constructor
  · have := selectLoop_dropLast_lt maxLen (sortDesc (candidates text)) 0 hpos
    simpa [selectedOf] using this
  · intro x xs hsort
    unfold selectedOf
    rw [hsort]
    obtain ⟨rest, hrest⟩ := selectLoop_cons_head maxLen x xs
    refine ⟨rest, hrest, ?_⟩
    rw [hrest]
    simp only [totalWC, List.map_cons, List.sum_cons]
    exact Nat.le_add_right _ _

theorem extractive_selector_budget_witness :
    (0 : ℤ) < 10 ∧
    (totalWC (selectedOf "Cats are great pets. Dogs bark. Cats purr.".toList 10).dropLast : ℤ)
      < 10 ∧
    ∃ rest, selectedOf "Cats are great pets. Dogs bark. Cats purr.".toList 10
        = "Cats purr.".toList :: rest ∧
      wordCount "Cats purr.".toList
        ≤ totalWC (selectedOf "Cats are great pets. Dogs bark. Cats purr.".toList 10) := by
  refine ⟨by decide, ?_⟩
  have h := extractive_selector_budget "Cats are great pets. Dogs bark. Cats purr.".toList 10
    (by decide)
  refine ⟨h.1, ?_⟩
  exact h.2 ⟨3, 2, "Cats purr.".toList⟩
    [⟨5, 4, "Cats are great pets.".toList⟩, ⟨2, 2, "Dogs bark.".toList⟩] (by decide)

/-- a `bump` adds one to exactly the bumped key. -/
theorem lookupD_bump (f : List (Str × ℕ)) (v w : Str) :
    lookupD (bump f v) w = lookupD f w + if v = w then 1 else 0 := by
  induction f with
  | nil => by_cases h : v = w <;> simp [bump, lookupD, h]
  | cons kv rest ih =>
    obtain ⟨k, n⟩ := kv
    by_cases hkv : k = v
    · subst hkv
      by_cases hw : k = w
      · subst hw
        simp [bump, lookupD]
      · simp [bump, lookupD, hw]
    · by_cases hw : k = w
      · subst hw
        have hvw : ¬v = k := fun h => hkv h.symm
        simp [bump, lookupD, hkv, hvw]
      · simp [bump, lookupD, hkv, hw, ih]

/-- folding the dict-building step counts the kept tokens. -/
theorem lookupD_foldl_bump (w : Str) : ∀ (ts : List Str) (f : List (Str × ℕ)),
    lookupD (ts.foldl (fun f w => if w.length ≤ 2 then f else bump f w) f) w =
      lookupD f w + (ts.filter (fun t => decide (2 < t.length))).count w := by
  intro ts
  induction ts with
  | nil => intro f; simp
  | cons t ts ih =>
    intro f
    rw [List.foldl_cons]
    by_cases hlen : t.length ≤ 2
    · rw [if_pos hlen, ih, List.filter_cons_of_neg (by simpa using hlen)]
    · rw [if_neg hlen, ih, lookupD_bump,
        List.filter_cons_of_pos (by simpa using Nat.lt_of_not_le hlen)]
      by_cases hw : t = w
      · subst hw
        simp [List.count_cons]
        omega
      · simp [List.count_cons, hw, Ne.symm hw]

/-- the built frequency table looks up to the token's count among the
document tokens longer than two characters (0 when absent). -/
theorem lookupD_freqOf (text w : Str) :
    lookupD (freqOf text) w =
      ((tokenize text).filter (fun t => decide (2 < t.length))).count w := by
  have h := lookupD_foldl_bump w (tokenize text) []
  simpa [freqOf, buildFreq, lookupD] using h

/-- C3: every scored sentence (a sentence with at least one word token)
has score = (sum over its tokens of the document-wide frequency count,
0 for absent tokens) divided by its token count to the power 0.8, where
tokens of length ≤ 2 are excluded from the frequency counts but the
denominator is the full token count of the sentence. -/
theorem extractive_score_formula (text : Str) (x : Scored)
    (hx : x ∈ candidates text) :
    x.cnt = (tokenize x.sent).length ∧
    rscore x =
      (((tokenize x.sent).map (fun w =>
          ((tokenize text).filter (fun t => decide (2 < t.length))).count w)).sum : ℝ)
        / ((tokenize x.sent).length : ℝ) ^ (0.8 : ℝ) := by
  obtain ⟨s, hs, hxs⟩ := List.mem_filterMap.mp hx
  by_cases hemp : (tokenize s).isEmpty
  · simp [hemp] at hxs
  · simp only [hemp, Bool.false_eq_true, if_false] at hxs
    rw [Option.some_inj] at hxs
    obtain rfl := hxs
    refine ⟨rfl, ?_⟩
    have hmap : (tokenize s).map (lookupD (freqOf text)) =
        (tokenize s).map (fun w =>
          ((tokenize text).filter (fun t => decide (2 < t.length))).count w) :=
      List.map_congr_left (fun a _ => lookupD_freqOf text a)
    simp only [rscore]
    rw [hmap]

theorem extractive_score_formula_witness :
    (⟨3, 2, "Cats purr.".toList⟩ : Scored)
        ∈ candidates "Cats are great pets. Dogs bark. Cats purr.".toList ∧
    rscore ⟨3, 2, "Cats purr.".toList⟩ =
      (((tokenize "Cats purr.".toList).map (fun w =>
          ((tokenize "Cats are great pets. Dogs bark. Cats purr.".toList).filter
            (fun t => decide (2 < t.length))).count w)).sum : ℝ)
        / ((tokenize "Cats purr.".toList).length : ℝ) ^ (0.8 : ℝ) :=
  ⟨by decide,
    (extractive_score_formula "Cats are great pets. Dogs bark. Cats purr.".toList
      ⟨3, 2, "Cats purr.".toList⟩ (by decide)).2⟩

/-- a non-empty trimmed string ends in a non-whitespace character. -/
theorem strip_getLast_not_WS {t : Str} (h : strip t ≠ []) :
    ∃ c, (strip t).getLast? = some c ∧ isWS c = false := by
  unfold strip at h ⊢
  rw [List.getLast?_reverse]
  have hne : ((t.dropWhile isWS).reverse.dropWhile isWS) ≠ [] := by
    intro hnil; rw [hnil] at h; exact h rfl
  have hhd := List.head?_dropWhile_not isWS (t.dropWhile isWS).reverse
  cases hq : ((t.dropWhile isWS).reverse.dropWhile isWS).head? with
  | none => exact absurd (List.head?_eq_none_iff.mp hq) hne
  | some c =>
    rw [hq] at hhd
    exact ⟨c, rfl, hhd⟩

/-- a non-empty trimmed string starts with a non-whitespace character. -/
theorem strip_head_not_WS {t : Str} (h : strip t ≠ []) :
    ∃ c, (strip t).head? = some c ∧ isWS c = false := by
  unfold strip at h ⊢
  rw [List.head?_reverse]
  obtain ⟨pre, hpre⟩ := List.dropWhile_suffix (l := (t.dropWhile isWS).reverse) isWS
  have hqne : ((t.dropWhile isWS).reverse.dropWhile isWS) ≠ [] := by
    intro hnil; rw [hnil] at h; exact h rfl
  have hgl : ((t.dropWhile isWS).reverse.dropWhile isWS).getLast?
      = (t.dropWhile isWS).reverse.getLast? := by
    conv_rhs => rw [← hpre]
    rw [List.getLast?_append]
    cases hq : ((t.dropWhile isWS).reverse.dropWhile isWS).getLast? with
    | none => exact absurd (List.getLast?_eq_none_iff.mp hq) hqne
    | some c => simp
  rw [hgl, List.getLast?_reverse]
  have hdne : t.dropWhile isWS ≠ [] := by
    intro hnil
    apply hqne
    rw [hnil]
    rfl
  have hhd := List.head?_dropWhile_not isWS t
  cases hq : (t.dropWhile isWS).head? with
  | none => exact absurd (List.head?_eq_none_iff.mp hq) hdne
  | some c =>
    rw [hq] at hhd
    exact ⟨c, rfl, hhd⟩

/-- every sentence of `sentencesOf` is non-empty and contains a
non-whitespace character. -/
theorem sentencesOf_sound {text s : Str} (hs : s ∈ sentencesOf text) :
    s ≠ [] ∧ ∃ c ∈ s, isWS c = false := by
  obtain ⟨hmem, hne⟩ := List.mem_filter.mp hs
  obtain ⟨p, _, rfl⟩ := List.mem_map.mp hmem
  have hne' : strip p ≠ [] := by simpa using hne
  obtain ⟨c, hc, hcw⟩ := strip_getLast_not_WS hne'
  exact ⟨hne', c, List.mem_of_mem_getLast? (by rw [hc]; rfl), hcw⟩

/-- every character held in the scanner's accumulator ends up in some
emitted piece. -/
theorem sentGo_acc_mem : ∀ (cs : Str) (b : Bool) (prev : Char) (acc : Str),
    ∀ ch ∈ acc, ∃ p ∈ sentGo b prev acc cs, ch ∈ p := by
  intro cs
  induction cs with
  | nil =>
    intro b prev acc ch hch
    exact ⟨acc.reverse, by cases b <;> simp [sentGo], List.mem_reverse.mpr hch⟩
  | cons c rest ih =>
    intro b prev acc ch hch
    cases b with
    | true =>
      by_cases hws : isWS c
      · rw [sentGo, if_pos hws]
        exact ih true prev acc ch hch
      · rw [sentGo, if_neg hws]
        exact ih false c (c :: acc) ch (List.mem_cons_of_mem _ hch)
    | false =>
      by_cases hsp : isTerm prev && isWS c
      · rw [sentGo, if_pos hsp]
        exact ⟨acc.reverse, List.mem_cons_self _ _, List.mem_reverse.mpr hch⟩
      · rw [sentGo, if_neg hsp]
        exact ih false c (c :: acc) ch (List.mem_cons_of_mem _ hch)

/-- a non-whitespace character of the input ends up in some piece of the
splitter's output. -/
theorem sentGo_nonWS_mem : ∀ (cs : Str) (b : Bool) (prev : Char) (acc : Str)
    (ch : Char), ch ∈ cs → isWS ch = false →
    ∃ p ∈ sentGo b prev acc cs, ch ∈ p := by
  intro cs
  induction cs with
  | nil => intro _ _ _ ch hch; cases hch
  | cons c rest ih =>
    intro b prev acc ch hch hw
    rcases List.mem_cons.mp hch with rfl | hch'
    · cases b with
      | true =>
        rw [sentGo, if_neg (by simp [hw])]
        exact sentGo_acc_mem rest false ch (ch :: acc) ch (List.mem_cons_self _ _)
      | false =>
        rw [sentGo, if_neg (by simp [hw])]
        exact sentGo_acc_mem rest false ch (ch :: acc) ch (List.mem_cons_self _ _)
    · cases b with
      | true =>
        by_cases hws : isWS c
        · rw [sentGo, if_pos hws]
          exact ih true prev acc ch hch' hw
        · rw [sentGo, if_neg hws]
          exact ih false c (c :: acc) ch hch' hw
      | false =>
        by_cases hsp : isTerm prev && isWS c
        · rw [sentGo, if_pos hsp]
          obtain ⟨p, hp, hchp⟩ := ih true ' ' [] ch hch' hw
          exact ⟨p, List.mem_cons_of_mem _ hp, hchp⟩
        · rw [sentGo, if_neg hsp]
          exact ih false c (c :: acc) ch hch' hw

/-- every unit kept by the dedup loop is non-empty. -/
theorem dedupUnits_mem_ne_nil : ∀ (us : List Str) (seen : List Str),
    ∀ u ∈ dedupUnits seen us, u ≠ [] := by
  intro us
  induction us with
  | nil => intro seen u hu; cases hu
  | cons v rest ih =>
    intro seen u hu
    rw [dedupUnits] at hu
    by_cases h1 : (strip v).isEmpty
    · rw [if_pos h1] at hu
      exact ih seen u hu
    · rw [if_neg h1] at hu
      by_cases h2 : (strip v).map Char.toLower ∈ seen
      · rw [if_pos h2] at hu
        exact ih seen u hu
      · rw [if_neg h2] at hu
        rcases List.mem_cons.mp hu with rfl | hu'
        · simpa [List.isEmpty_iff] using h1
        · exact ih _ u hu'

/-- the dedup loop keeps something as soon as one unit trims non-empty
(under the empty seen set). -/
theorem dedupUnits_ne_nil : ∀ (us : List Str),
    (∃ p ∈ us, strip p ≠ []) → dedupUnits [] us ≠ [] := by
  intro us
  induction us with
  | nil => rintro ⟨p, hp, _⟩; cases hp
  | cons v rest ih =>
    rintro ⟨p, hp, hpne⟩
    rw [dedupUnits]
    by_cases h1 : (strip v).isEmpty
    · rw [if_pos h1]
      rcases List.mem_cons.mp hp with rfl | hp'
      · exact absurd (List.isEmpty_iff.mp h1) hpne
      · exact ih ⟨p, hp', hpne⟩
    · rw [if_neg h1]
      rw [if_neg (List.not_mem_nil _)]
      exact List.cons_ne_nil _ _

/-- the join of units starting with a non-empty unit is non-empty. -/
theorem joinSep_cons_ne_nil (sep : Str) (u : Str) (us : List Str)
    (hu : u ≠ []) : joinSep sep (u :: us) ≠ [] := by
  cases us with
  | nil => simpa [joinSep] using hu
  | cons t rest =>
    rw [joinSep]
    simp [hu]

/-- the Deduplicator returns a non-empty string on input that trims to a
non-empty string. -/
theorem dedup_ne_nil {x : Str} (h : strip x ≠ []) :
    _deduplicate_sentences x ≠ [] := by
  have hex : ∃ c ∈ x, isWS c = false := by
    by_contra hall
    push_neg at hall
    exact h (strip_eq_nil_iff.mpr (fun c hc => by
      have := hall c hc
      simpa using this))
  obtain ⟨c, hc, hcw⟩ := hex
  obtain ⟨p, hp, hcp⟩ := sentGo_nonWS_mem x false ' ' [] c hc hcw
  have hpne : strip p ≠ [] := by
    intro hnil
    have := strip_eq_nil_iff.mp hnil c hcp
    rw [hcw] at this
    cases this
  unfold _deduplicate_sentences
  have hne := dedupUnits_ne_nil (sentSplit x) ⟨p, hp, hpne⟩
  cases hu : dedupUnits [] (sentSplit x) with
  | nil => exact absurd hu hne
  | cons u rest =>
    exact joinSep_cons_ne_nil _ u rest
      (dedupUnits_mem_ne_nil _ _ u (hu ▸ List.mem_cons_self u rest))

/-- `insertDesc` inserts: the result is a permutation of consing. -/
theorem insertDesc_perm (x : Scored) : ∀ (l : List Scored),
    (insertDesc x l).Perm (x :: l) := by
  intro l
  induction l with
  | nil => simp [insertDesc]
  | cons y ys ih =>
    rw [insertDesc]
    by_cases h : geB x y
    · rw [if_pos h]
    · rw [if_neg h]
      exact (ih.cons y).trans (List.Perm.swap x y ys)

/-- the stable sort permutes its input. -/
theorem sortDesc_perm : ∀ (l : List Scored), (sortDesc l).Perm l := by
  intro l
  induction l with
  | nil => simp [sortDesc]
  | cons x xs ih =>
    rw [sortDesc]
    exact (insertDesc_perm x (sortDesc xs)).trans (ih.cons x)

/-- everything the greedy loop selects is the sentence of an input
candidate. -/
theorem selectLoop_subset (maxLen : ℤ) : ∀ (ys : List Scored) (t : ℤ),
    ∀ s ∈ selectLoop maxLen ys t, ∃ x ∈ ys, s = x.sent := by
  intro ys
  induction ys with
  | nil => intro t s hs; cases hs
  | cons x xs ih =>
    intro t s hs
    rw [selectLoop] at hs
    by_cases hacc : t + (wordCount x.sent : ℤ) ≤ maxLen ∨ t = 0
    · rw [if_pos hacc] at hs
      by_cases hbrk : maxLen ≤ t + (wordCount x.sent : ℤ)
      · rw [if_pos hbrk] at hs
        rcases List.mem_cons.mp hs with rfl | h
        · exact ⟨x, List.mem_cons_self _ _, rfl⟩
        · cases h
      · rw [if_neg hbrk] at hs
        rcases List.mem_cons.mp hs with rfl | h
        · exact ⟨x, List.mem_cons_self _ _, rfl⟩
        · obtain ⟨y, hy, rfl⟩ := ih _ s h
          exact ⟨y, List.mem_cons_of_mem _ hy, rfl⟩
    · rw [if_neg hacc] at hs
      by_cases hstop : maxLen ≤ t
      · rw [if_pos hstop] at hs
        cases hs
      · rw [if_neg hstop] at hs
        obtain ⟨y, hy, rfl⟩ := ih _ s hs
        exact ⟨y, List.mem_cons_of_mem _ hy, rfl⟩

/-- every candidate's sentence is a sentence of the document. -/
theorem candidates_sent_mem {text : Str} {x : Scored}
    (hx : x ∈ candidates text) : x.sent ∈ sentencesOf text := by
  obtain ⟨s, hs, hxs⟩ := List.mem_filterMap.mp hx
  by_cases hemp : (tokenize s).isEmpty
  · simp [hemp] at hxs
  · simp only [hemp, Bool.false_eq_true, if_false] at hxs
    rw [Option.some_inj] at hxs
    obtain rfl := hxs
    exact hs

/-- C1: for every document with at least one non-empty sentence after
splitting and trimming, the extractive summarizer returns a non-empty
string (the greedy loop always accepts a first candidate, and when all
candidates were filtered away it falls back to the first 3 sentences). -/
theorem extractive_nonempty (text : Str) (minL maxL : ℤ)
    (h : sentencesOf text ≠ []) :
    _summarize_extractive text minL maxL ≠ [] := by
  unfold _summarize_extractive
  rw [if_neg (by simpa [List.isEmpty_iff] using h)]
  have hmem : ∃ s, s ∈ (if (selectedOf text maxL).isEmpty then
      (sentencesOf text).take 3 else selectedOf text maxL) ∧ s ∈ sentencesOf text := by
    by_cases hsel : (selectedOf text maxL).isEmpty
    · rw [if_pos hsel]
      cases hsents : sentencesOf text with
      | nil => exact absurd hsents h
      | cons s rest =>
        exact ⟨s, by simp, List.mem_cons_self _ _⟩
    · rw [if_neg hsel]
      cases hsel' : selectedOf text maxL with
      | nil => rw [hsel'] at hsel; exact absurd rfl hsel
      | cons s rest =>
        have hs : s ∈ selectedOf text maxL := by
          rw [hsel']; exact List.mem_cons_self _ _
        obtain ⟨x, hx, rfl⟩ := selectLoop_subset maxL _ 0 s hs
        have hx' : x ∈ candidates text := ((sortDesc_perm _).mem_iff).mp hx
        exact ⟨x.sent, List.mem_cons_self _ _, candidates_sent_mem hx'⟩
  obtain ⟨s, hsl, hss⟩ := hmem
  obtain ⟨hne, c, hcs, hcw⟩ := sentencesOf_sound hss
  apply dedup_ne_nil
  intro hnil
  have := strip_eq_nil_iff.mp hnil c (mem_joinSep _ _ s hsl c hcs)
  rw [hcw] at this
  cases this

theorem extractive_nonempty_witness :
    sentencesOf "Cats are great pets. Dogs bark. Cats purr.".toList ≠ [] ∧
    _summarize_extractive "Cats are great pets. Dogs bark. Cats purr.".toList 5 10 ≠ [] :=
  ⟨by decide,
    extractive_nonempty "Cats are great pets. Dogs bark. Cats purr.".toList 5 10 (by decide)⟩

/-- the decidable comparison agrees with the real score order (on
positive token counts, which every candidate has). -/
theorem geB_iff_rscore_le (x y : Scored) (hx : 0 < x.cnt) (hy : 0 < y.cnt) :
    geB x y = true ↔ rscore y ≤ rscore x := by
  have hxr : (0:ℝ) < (x.cnt : ℝ) := by exact_mod_cast hx
  have hyr : (0:ℝ) < (y.cnt : ℝ) := by exact_mod_cast hy
  have hxc : (0:ℝ) < (x.cnt : ℝ) ^ (0.8 : ℝ) := Real.rpow_pos_of_pos hxr _
  have hyc : (0:ℝ) < (y.cnt : ℝ) ^ (0.8 : ℝ) := Real.rpow_pos_of_pos hyr _
  have hpow : ∀ (m : ℕ), 0 < m → (((m : ℝ)) ^ (0.8 : ℝ)) ^ (5 : ℕ) = ((m : ℝ)) ^ (4 : ℕ) := by
    intro m hm
    rw [← Real.rpow_natCast (((m : ℝ)) ^ (0.8 : ℝ)) 5,
      ← Real.rpow_mul (by positivity)]
    rw [show (0.8 : ℝ) * (5:ℕ) = ((4:ℕ) : ℝ) by norm_num, Real.rpow_natCast]
  have key : ((y.num : ℝ) * (x.cnt : ℝ) ^ (0.8 : ℝ)
      ≤ (x.num : ℝ) * (y.cnt : ℝ) ^ (0.8 : ℝ))
      ↔ ((y.num : ℝ) ^ (5:ℕ) * (x.cnt : ℝ) ^ (4:ℕ)
        ≤ (x.num : ℝ) ^ (5:ℕ) * (y.cnt : ℝ) ^ (4:ℕ)) := by
    rw [← pow_le_pow_iff_left₀ (by positivity) (by positivity) (show 5 ≠ 0 by norm_num),
      mul_pow, mul_pow, hpow x.cnt hx, hpow y.cnt hy]
  rw [geB, decide_eq_true_iff, rscore, rscore, div_le_div_iff₀ hyc hxc, key]
  constructor
  · intro h
    exact_mod_cast h
  · intro h
    exact_mod_cast h

/-- `insertDesc` walks past exactly the strictly higher-scored front. -/
theorem insertDesc_eq_takeWhile (x : Scored) : ∀ (s : List Scored),
    insertDesc x s =
      s.takeWhile (fun y => !(geB x y)) ++ x :: s.dropWhile (fun y => !(geB x y)) := by
  intro s
  induction s with
  | nil => simp [insertDesc]
  | cons y ys ih =>
    rw [insertDesc, List.takeWhile_cons, List.dropWhile_cons]
    by_cases h : geB x y
    · rw [if_pos h]
      simp [h]
    · rw [if_neg h]
      simp only [h, Bool.not_false, if_true]
      rw [List.cons_append, ih]

/-- inserting into a score-sorted list keeps it score-sorted. -/
theorem sorted_insertDesc (x : Scored) (hx : 0 < x.cnt) : ∀ (s : List Scored),
    (∀ y ∈ s, 0 < y.cnt) → s.Sorted (fun a b => rscore b ≤ rscore a) →
    (insertDesc x s).Sorted (fun a b => rscore b ≤ rscore a) := by
  intro s
  induction s with
  | nil => intro _ _; simp [insertDesc, List.Sorted]
  | cons y ys ih =>
    intro hmem hs
    rw [List.sorted_cons] at hs
    obtain ⟨hy, hys⟩ := hs
    have hymem : (0:ℕ) < y.cnt := hmem y (List.mem_cons_self _ _)
    rw [insertDesc]
    by_cases h : geB x y
    · rw [if_pos h]
      rw [List.sorted_cons]
      refine ⟨?_, List.sorted_cons.mpr ⟨hy, hys⟩⟩
      intro z hz
      rcases List.mem_cons.mp hz with rfl | hz'
      · exact (geB_iff_rscore_le x z hx hymem).mp h
      · exact le_trans (hy z hz') ((geB_iff_rscore_le x y hx hymem).mp h)
    · rw [if_neg h]
      rw [List.sorted_cons]
      constructor
      · intro z hz
        have hz' := (insertDesc_perm x ys).mem_iff.mp hz
        rcases List.mem_cons.mp hz' with hzx | hz''
        · rw [hzx]
          have hlt : ¬ rscore y ≤ rscore x := fun hle =>
            h ((geB_iff_rscore_le x y hx hymem).mpr hle)
          exact le_of_lt (lt_of_not_le hlt)
        · exact hy z hz''
      · exact ih (fun z hz => hmem z (List.mem_cons_of_mem _ hz)) hys

/-- C10: the embedded sort (stable descending insertion, the semantics of
Python `list.sort(key=..., reverse=True)`) permutes the candidates, orders
them by non-increasing real score, and is stable: two candidates with
equal scores keep their original relative (document) order, so the
extractive result is a deterministic function of its inputs even on tied
scores. -/
theorem sortDesc_stable_deterministic : ∀ (l : List Scored),
    (∀ x ∈ l, 0 < x.cnt) →
    (sortDesc l).Perm l ∧
    (sortDesc l).Sorted (fun a b => rscore b ≤ rscore a) ∧
    ∀ x y : Scored, rscore x = rscore y → [x, y].Sublist l →
      [x, y].Sublist (sortDesc l) := by
  intro l
  induction l with
  | nil =>
    intro _
    refine ⟨by simp [sortDesc], by simp [sortDesc, List.Sorted], ?_⟩
    intro x y _ hsub
    cases hsub
  | cons a l' ih =>
    intro hpos
    have hpos' : ∀ x ∈ l', 0 < x.cnt := fun x hx => hpos x (List.mem_cons_of_mem _ hx)
    obtain ⟨ihperm, ihsort, ihstable⟩ := ih hpos'
    have hamem : 0 < a.cnt := hpos a (List.mem_cons_self _ _)
    have hsortmem : ∀ y ∈ sortDesc l', 0 < y.cnt :=
      fun y hy => hpos' y (ihperm.mem_iff.mp hy)
    refine ⟨?_, ?_, ?_⟩
    · rw [sortDesc]
      exact (insertDesc_perm a (sortDesc l')).trans (ihperm.cons a)
    · rw [sortDesc]
      exact sorted_insertDesc a hamem (sortDesc l') hsortmem ihsort
    · intro x y heq hsub
      rw [sortDesc]
      cases hsub with
      | cons _ h =>
        have hxy : [x, y].Sublist (sortDesc l') := ihstable x y heq h
        have hexp := insertDesc_eq_takeWhile a (sortDesc l')
        have hsplit : sortDesc l' =
            (sortDesc l').takeWhile (fun y => !(geB a y))
              ++ (sortDesc l').dropWhile (fun y => !(geB a y)) :=
          (List.takeWhile_append_dropWhile _ _).symm
        refine hxy.trans ?_
        rw [hexp]
        conv_lhs => rw [hsplit]
        exact ((List.sublist_cons_self a _).append_left _)
      | cons₂ _ h =>
        -- here the first of the pair is the head `a`; y occurs in l'
        have hymem : y ∈ l' := List.singleton_sublist.mp h
        have hymem' : y ∈ sortDesc l' := ihperm.mem_iff.mpr hymem
        have hycnt : 0 < y.cnt := hpos' y hymem
        have hgeB : geB a y = true :=
          (geB_iff_rscore_le a y hamem hycnt).mpr (le_of_eq heq.symm)
        rw [insertDesc_eq_takeWhile]
        have hynot : y ∉ (sortDesc l').takeWhile (fun z => !(geB a z)) := by
          intro hyin
          have := List.mem_takeWhile_imp hyin
          rw [hgeB] at this
          cases this
        have hydrop : y ∈ (sortDesc l').dropWhile (fun z => !(geB a z)) := by
          have hsplit : sortDesc l' =
              (sortDesc l').takeWhile (fun z => !(geB a z))
                ++ (sortDesc l').dropWhile (fun z => !(geB a z)) :=
            (List.takeWhile_append_dropWhile _ _).symm
          have hmem2 := hymem'
          rw [hsplit] at hmem2
          rcases List.mem_append.mp hmem2 with h' | h'
          · exact absurd h' hynot
          · exact h'
        have hxydw : ([a, y] : List Scored).Sublist
            (a :: (sortDesc l').dropWhile (fun z => !(geB a z))) :=
          (List.singleton_sublist.mpr hydrop).cons₂ a
        exact hxydw.trans (List.sublist_append_right _ _)

theorem sortDesc_stable_deterministic_witness :
    (∀ x ∈ [(⟨2, 1, "Aa.".toList⟩ : Scored), ⟨2, 1, "Bb.".toList⟩], 0 < x.cnt) ∧
    (sortDesc [(⟨2, 1, "Aa.".toList⟩ : Scored), ⟨2, 1, "Bb.".toList⟩]).Perm
      [⟨2, 1, "Aa.".toList⟩, ⟨2, 1, "Bb.".toList⟩] ∧
    ([(⟨2, 1, "Aa.".toList⟩ : Scored), ⟨2, 1, "Bb.".toList⟩] :
        List Scored).Sublist
      (sortDesc [⟨2, 1, "Aa.".toList⟩, ⟨2, 1, "Bb.".toList⟩]) := by
  have h := sortDesc_stable_deterministic
    [⟨2, 1, "Aa.".toList⟩, ⟨2, 1, "Bb.".toList⟩] (by decide)
  exact ⟨by decide, h.1,
    h.2.2 ⟨2, 1, "Aa.".toList⟩ ⟨2, 1, "Bb.".toList⟩ rfl (List.Sublist.refl _)⟩

theorem sentGo_ne_nil : ∀ (cs : Str) (b : Bool) (prev : Char) (acc : Str),
    sentGo b prev acc cs ≠ [] := by
  intro cs
  induction cs with
  | nil => intro b prev acc; cases b <;> simp [sentGo]
  | cons c rest ih =>
    intro b prev acc
    cases b with
    | true =>
      by_cases hws : isWS c
      · rw [sentGo, if_pos hws]; exact ih true prev acc
      · rw [sentGo, if_neg hws]; exact ih false c (c :: acc)
    | false =>
      by_cases hsp : isTerm prev && isWS c
      · rw [sentGo, if_pos hsp]; exact List.cons_ne_nil _ _
      · rw [sentGo, if_neg hsp]; exact ih false c (c :: acc)

theorem getLastD_reverse (l : Str) (d : Char) :
    l.reverse.getLastD d = l.headD d := by
  simp

theorem okRun_append_last : ∀ (l : Str) (d c : Char),
    okRun d (l ++ [c]) = (okRun d l && !(isTerm (l.getLastD d) && isWS c)) := by
  intro l
  induction l with
  | nil => intro d c; simp [okRun]
  | cons a l' ih =>
    intro d c
    simp only [List.cons_append, okRun, List.append_eq, ih, List.getLastD_cons,
      Bool.and_assoc]

/-- every piece emitted by the splitter contains no internal split point
(given the state invariant: lookbehind = head of the accumulator, and the
accumulated piece so far is split-point-free). -/
theorem sentGo_pieces_okRun : ∀ (cs : Str) (b : Bool) (prev : Char) (acc : Str),
    prev = acc.headD ' ' → okRun ' ' acc.reverse = true →
    ∀ p ∈ sentGo b prev acc cs, okRun ' ' p = true := by
  intro cs
  induction cs with
  | nil =>
    intro b prev acc _ hok p hp
    have : p = acc.reverse := by
      cases b <;> simpa [sentGo] using hp
    rw [this]; exact hok
  | cons c rest ih =>
    intro b prev acc hprev hok p hp
    cases b with
    | true =>
      by_cases hws : isWS c
      · rw [sentGo, if_pos hws] at hp
        exact ih true prev acc hprev hok p hp
      · rw [sentGo, if_neg hws] at hp
        have hf : (isTerm prev && isWS c) = false := by
          cases h' : isWS c
          · simp
          · exact absurd h' hws
        have hstep : okRun ' ' ((c :: acc).reverse) = true := by
          rw [List.reverse_cons, okRun_append_last, hok, getLastD_reverse, ← hprev, hf]
          simp
        exact ih false c (c :: acc) rfl hstep p hp
    | false =>
      by_cases hsp : isTerm prev && isWS c
      · rw [sentGo, if_pos hsp] at hp
        rcases List.mem_cons.mp hp with rfl | hp'
        · exact hok
        · exact ih true ' ' [] rfl (by simp [okRun]) p hp'
      · rw [sentGo, if_neg hsp] at hp
        have hf : (isTerm prev && isWS c) = false := by
          cases h' : (isTerm prev && isWS c)
          · rfl
          · exact absurd h' hsp
        have hstep : okRun ' ' ((c :: acc).reverse) = true := by
          rw [List.reverse_cons, okRun_append_last, hok, getLastD_reverse, ← hprev, hf]
          simp
        exact ih false c (c :: acc) rfl hstep p hp

theorem okRun_dropWhile : ∀ (l : Str) (prev : Char),
    okRun prev l = true → okRun ' ' (l.dropWhile isWS) = true := by
  intro l
  induction l with
  | nil => intro prev _; simp [okRun]
  | cons c rest ih =>
    intro prev h
    rw [okRun, Bool.and_eq_true] at h
    by_cases hws : isWS c
    · rw [List.dropWhile_cons, if_pos hws]
      exact ih c h.2
    · rw [List.dropWhile_cons, if_neg hws]
      rw [okRun, Bool.and_eq_true]
      exact ⟨by simp [isTerm], h.2⟩

theorem okRun_of_append_left : ∀ (l₁ l₂ : Str) (d : Char),
    okRun d (l₁ ++ l₂) = true → okRun d l₁ = true := by
  intro l₁
  induction l₁ with
  | nil => intro _ _ _; simp [okRun]
  | cons c rest ih =>
    intro l₂ d h
    rw [List.cons_append, okRun, Bool.and_eq_true] at h
    rw [okRun, Bool.and_eq_true]
    exact ⟨h.1, ih l₂ c h.2⟩

theorem getLastD_of_ne_nil {p : Str} (h : p ≠ []) (d d' : Char) :
    p.getLastD d = p.getLastD d' := by
  cases p with
  | nil => exact absurd rfl h
  | cons a l => rw [List.getLastD_cons, List.getLastD_cons]

/-- shape of the splitter's output: the head piece extends the reversed
accumulator; when more pieces follow, the head piece ends in a terminator;
and every further piece except the last is non-empty and ends in a
terminator. -/
theorem sentGo_shape : ∀ (cs : Str) (b : Bool) (prev : Char) (acc : Str)
    (p : Str) (ps : List Str), prev = acc.headD ' ' →
    sentGo b prev acc cs = p :: ps →
    (∃ r, p = acc.reverse ++ r) ∧
    (ps ≠ [] → isTerm (p.getLastD prev) = true) ∧
    (∀ q ∈ ps.dropLast, q ≠ [] ∧ isTerm (q.getLastD ' ') = true) := by
  intro cs
  induction cs with
  | nil =>
    intro b prev acc p ps hprev heq
    have hps : acc.reverse = p ∧ ps = [] := by
      cases b <;> (simp [sentGo] at heq; exact heq)
    refine ⟨⟨[], by simp [hps.1.symm]⟩, ?_, ?_⟩
    · intro hne; exact absurd hps.2 hne
    · intro q hq; rw [hps.2] at hq; cases hq
  | cons c rest ih =>
    intro b prev acc p ps hprev heq
    cases b with
    | true =>
      by_cases hws : isWS c
      · rw [sentGo, if_pos hws] at heq
        exact ih true prev acc p ps hprev heq
      · rw [sentGo, if_neg hws] at heq
        obtain ⟨⟨r, hr⟩, h2, h3⟩ := ih false c (c :: acc) p ps rfl heq
        have hpne : p ≠ [] := by rw [hr]; simp
        refine ⟨⟨c :: r, by rw [hr]; simp⟩, ?_, h3⟩
        intro hne
        rw [getLastD_of_ne_nil hpne prev c]
        exact h2 hne
    | false =>
      by_cases hsp : isTerm prev && isWS c
      · rw [sentGo, if_pos hsp] at heq
        injection heq with h1 h2
        refine ⟨⟨[], by simp [h1]⟩, ?_, ?_⟩
        · intro _
          rw [← h1]
          cases acc with
          | nil =>
            simp at hprev
            rw [hprev] at hsp
            simp [isTerm] at hsp
          | cons a acc' =>
            simp at hprev
            rw [getLastD_reverse]
            rw [Bool.and_eq_true] at hsp
            simpa [hprev] using hsp.1
        · intro q hq
          rw [← h2] at hq
          cases hrec : sentGo true ' ' [] rest with
          | nil => exact absurd hrec (sentGo_ne_nil rest true ' ' [])
          | cons p' ps' =>
            obtain ⟨_, k2, k3⟩ := ih true ' ' [] p' ps' rfl hrec
            rw [hrec] at hq
            cases ps' with
            | nil => simp at hq
            | cons p'' ps'' =>
              rw [List.dropLast_cons₂] at hq
              rcases List.mem_cons.mp hq with rfl | hq'
              · have hterm := k2 (List.cons_ne_nil _ _)
                have hqne : q ≠ [] := by
                  intro hnil
                  rw [hnil] at hterm
                  simp [isTerm] at hterm
                exact ⟨hqne, hterm⟩
              · exact k3 q hq'
      · rw [sentGo, if_neg hsp] at heq
        obtain ⟨⟨r, hr⟩, h2, h3⟩ := ih false c (c :: acc) p ps rfl heq
        have hpne : p ≠ [] := by rw [hr]; simp
        refine ⟨⟨c :: r, by rw [hr]; simp⟩, ?_, h3⟩
        intro hne
        rw [getLastD_of_ne_nil hpne prev c]
        exact h2 hne

/-- every character of every piece comes from the accumulator or the
remaining input. -/
theorem sentGo_chars : ∀ (cs : Str) (b : Bool) (prev : Char) (acc : Str),
    ∀ p ∈ sentGo b prev acc cs, ∀ ch ∈ p, ch ∈ acc ∨ ch ∈ cs := by
  intro cs
  induction cs with
  | nil =>
    intro b prev acc p hp ch hch
    have : p = acc.reverse := by
      cases b <;> simpa [sentGo] using hp
    rw [this] at hch
    exact Or.inl (List.mem_reverse.mp hch)
  | cons c rest ih =>
    intro b prev acc p hp ch hch
    cases b with
    | true =>
      by_cases hws : isWS c
      · rw [sentGo, if_pos hws] at hp
        rcases ih true prev acc p hp ch hch with h | h
        · exact Or.inl h
        · exact Or.inr (List.mem_cons_of_mem _ h)
      · rw [sentGo, if_neg hws] at hp
        rcases ih false c (c :: acc) p hp ch hch with h | h
        · rcases List.mem_cons.mp h with rfl | h'
          · exact Or.inr (List.mem_cons_self _ _)
          · exact Or.inl h'
        · exact Or.inr (List.mem_cons_of_mem _ h)
    | false =>
      by_cases hsp : isTerm prev && isWS c
      · rw [sentGo, if_pos hsp] at hp
        rcases List.mem_cons.mp hp with rfl | hp'
        · exact Or.inl (List.mem_reverse.mp hch)
        · rcases ih true ' ' [] p hp' ch hch with h | h
          · cases h
          · exact Or.inr (List.mem_cons_of_mem _ h)
      · rw [sentGo, if_neg hsp] at hp
        rcases ih false c (c :: acc) p hp ch hch with h | h
        · rcases List.mem_cons.mp h with rfl | h'
          · exact Or.inr (List.mem_cons_self _ _)
          · exact Or.inl h'
        · exact Or.inr (List.mem_cons_of_mem _ h)

theorem dropWhile_of_head_not {l : Str} {c : Char} (h : l.head? = some c)
    (hc : isWS c = false) : l.dropWhile isWS = l := by
  cases l with
  | nil => cases h
  | cons a rest =>
    rw [List.head?_cons, Option.some_inj] at h
    rw [h]
    simp [List.dropWhile_cons, hc]

theorem getLastD_mem {q : Str} (h : q ≠ []) (d : Char) : q.getLastD d ∈ q := by
  rw [List.getLastD_eq_getLast?]
  cases hgl : q.getLast? with
  | none => exact absurd (List.getLast?_eq_none_iff.mp hgl) h
  | some x =>
    simp only [Option.getD_some]
    exact List.mem_of_mem_getLast? (by rw [hgl]; rfl)

theorem getLast?_append_of_ne_nil {pre q : Str} (h : q ≠ []) :
    (pre ++ q).getLast? = q.getLast? := by
  rw [List.getLast?_append]
  cases hgl : q.getLast? with
  | none => exact absurd (List.getLast?_eq_none_iff.mp hgl) h
  | some x => rfl

/-- trimming a string whose last character is non-whitespace only trims
the front, keeping the last character. -/
theorem strip_getLastD_of_last_not_WS {p : Str} (hne : p ≠ [])
    (hl : isWS (p.getLastD ' ') = false) :
    strip p ≠ [] ∧ (strip p).getLastD ' ' = p.getLastD ' ' := by
  have hdne : p.dropWhile isWS ≠ [] := by
    intro hnil
    have hall := List.dropWhile_eq_nil_iff.mp hnil
    have := hall (p.getLastD ' ') (getLastD_mem hne ' ')
    rw [hl] at this
    cases this
  obtain ⟨pre, hpre⟩ := List.dropWhile_suffix (l := p) isWS
  have hgl : (p.dropWhile isWS).getLast? = p.getLast? := by
    conv_rhs => rw [← hpre]
    rw [getLast?_append_of_ne_nil hdne]
  have hsome : p.getLast? = some (p.getLastD ' ') := by
    rw [List.getLastD_eq_getLast?]
    cases hgl' : p.getLast? with
    | none => exact absurd (List.getLast?_eq_none_iff.mp hgl') hne
    | some x => rfl
  have hrevhead : ((p.dropWhile isWS).reverse).head? = some (p.getLastD ' ') := by
    rw [List.head?_reverse, hgl, hsome]
  have hstrip : strip p = p.dropWhile isWS := by
    unfold strip
    rw [dropWhile_of_head_not hrevhead hl, List.reverse_reverse]
  refine ⟨by rw [hstrip]; exact hdne, ?_⟩
  rw [hstrip, List.getLastD_eq_getLast?, hgl, hsome, List.getLastD_eq_getLast?, hsome]
  simp

theorem strip_of_clean {u : Str}
    (hh : ∀ c, u.head? = some c → isWS c = false)
    (hl : ∀ c, u.getLast? = some c → isWS c = false) : strip u = u := by
  cases u with
  | nil => rfl
  | cons a rest =>
    unfold strip
    have h1 : (a :: rest).dropWhile isWS = a :: rest :=
      dropWhile_of_head_not rfl (hh a rfl)
    rw [h1]
    cases hgl : (a :: rest).getLast? with
    | none => exact absurd (List.getLast?_eq_none_iff.mp hgl) (List.cons_ne_nil _ _)
    | some x =>
      have hx : ((a :: rest).reverse).head? = some x := by
        rw [List.head?_reverse]; exact hgl
      rw [dropWhile_of_head_not hx (hl x hgl), List.reverse_reverse]

theorem strip_idem (t : Str) : strip (strip t) = strip t := by
  by_cases h : strip t = []
  · rw [h]; rfl
  · obtain ⟨c1, hc1, hw1⟩ := strip_head_not_WS h
    obtain ⟨c2, hc2, hw2⟩ := strip_getLast_not_WS h
    apply strip_of_clean
    · intro c hc
      rw [hc1, Option.some_inj] at hc
      rw [← hc]; exact hw1
    · intro c hc
      rw [hc2, Option.some_inj] at hc
      rw [← hc]; exact hw2

/-- the trimmed string is a left part of the front-trimmed string, so a
split-point-free stretch stays split-point-free after trimming. -/
theorem okRun_strip {p : Str} (hok : okRun ' ' p = true) :
    okRun ' ' (strip p) = true := by
  have hd : okRun ' ' (p.dropWhile isWS) = true := okRun_dropWhile p ' ' hok
  obtain ⟨pre, hpre⟩ :=
    List.dropWhile_suffix (l := (p.dropWhile isWS).reverse) isWS
  have hdec : p.dropWhile isWS = strip p ++ pre.reverse := by
    unfold strip
    conv_lhs => rw [← List.reverse_reverse (p.dropWhile isWS), ← hpre]
    rw [List.reverse_append]
  rw [hdec] at hd
  exact okRun_of_append_left _ _ _ hd

theorem isPunct_isTerm {c : Char} (h : isPunct c = true) : isTerm c = true := by
  simp only [isPunct, Bool.or_eq_true, decide_eq_true_eq] at h
  simp only [isTerm, Bool.or_eq_true, decide_eq_true_eq]
  tauto

theorem isPunct_not_WS {c : Char} (h : isPunct c = true) : isWS c = false := by
  simp only [isPunct, Bool.or_eq_true, decide_eq_true_eq] at h
  rcases h with (rfl | rfl) | rfl <;> decide

theorem isTerm_not_newline {c : Char} (h : isTerm c = true) (hn : c ≠ '\n') :
    isPunct c = true := by
  simp only [isTerm, Bool.or_eq_true, decide_eq_true_eq] at h
  simp only [isPunct, Bool.or_eq_true, decide_eq_true_eq]
  tauto

/-- the scanner passes a split-point-free stretch straight into the
accumulator. -/
theorem sentGo_run : ∀ (u : Str) (prev : Char) (acc rest : Str),
    okRun prev u = true →
    sentGo false prev acc (u ++ rest)
      = sentGo false (u.getLastD prev) (u.reverse ++ acc) rest := by
  intro u
  induction u with
  | nil => intro prev acc rest _; simp
  | cons c u' ih =>
    intro prev acc rest h
    rw [okRun, Bool.and_eq_true] at h
    have hf : (isTerm prev && isWS c) = false := by
      cases h' : (isTerm prev && isWS c)
      · rfl
      · rw [h'] at h; simp at h
    rw [List.cons_append, sentGo, if_neg (by rw [hf]; simp), ih c (c :: acc) rest h.2,
      List.getLastD_cons, List.reverse_cons, List.append_assoc]
    rfl

/-- right after a consumed whitespace run, scanning from the in-run state
or from scratch is the same when the next character is not whitespace. -/
theorem sentGo_true_of_head_not (prev : Char) : ∀ (cs : Str),
    (∀ c, cs.head? = some c → isWS c = false) →
    sentGo true prev [] cs = sentGo false ' ' [] cs := by
  intro cs h
  cases cs with
  | nil => rfl
  | cons c rest =>
    have hc := h c rfl
    rw [sentGo, if_neg (by rw [hc]; simp)]
    rw [show sentGo false ' ' [] (c :: rest)
        = if isTerm ' ' && isWS c then [].reverse :: sentGo true ' ' [] rest
          else sentGo false c (c :: []) rest from rfl]
    rw [if_neg (by rw [hc]; simp [isTerm])]

theorem joinSep_head? {sep : Str} (v : Str) (vs : List Str) (hv : v ≠ []) :
    (joinSep sep (v :: vs)).head? = v.head? := by
  cases vs with
  | nil => rfl
  | cons t rest =>
    rw [joinSep]
    cases v with
    | nil => exact absurd rfl hv
    | cons a v' => simp

/-- splitting the space-join of clean units (non-empty, split-point-free,
starting with non-whitespace, all but the last ending in sentence
punctuation) recovers exactly the units. -/
theorem sentSplit_joinSep : ∀ (us : List Str), us ≠ [] →
    (∀ u ∈ us, u ≠ [] ∧ okRun ' ' u = true ∧
      ∀ c, u.head? = some c → isWS c = false) →
    (∀ u ∈ us.dropLast, isPunct (u.getLastD ' ') = true) →
    sentSplit (joinSep [' '] us) = us := by
  intro us
  induction us with
  | nil => intro h; exact absurd rfl h
  | cons u vs ih =>
    intro _ hcond hpunct
    obtain ⟨hune, hok, _⟩ := hcond u (List.mem_cons_self _ _)
    cases vs with
    | nil =>
      show sentGo false ' ' [] (joinSep [' '] [u]) = [u]
      have hj : joinSep [' '] [u] = u := rfl
      rw [hj, ← List.append_nil u, sentGo_run u ' ' [] [] hok]
      simp [sentGo]
    | cons v vs' =>
      obtain ⟨hvne, _, hvhead⟩ := hcond v (List.mem_cons_of_mem _ (List.mem_cons_self _ _))
      have hterm : isTerm (u.getLastD ' ') = true := by
        apply isPunct_isTerm
        apply hpunct u
        rw [List.dropLast_cons₂]
        exact List.mem_cons_self _ _
      show sentGo false ' ' [] (joinSep [' '] (u :: v :: vs')) = u :: v :: vs'
      rw [joinSep, List.append_assoc]
      rw [show ([' '] : Str) ++ joinSep [' '] (v :: vs')
          = ' ' :: joinSep [' '] (v :: vs') from rfl]
      rw [sentGo_run u ' ' [] _ hok, List.append_nil, sentGo,
        if_pos (by rw [hterm]; decide)]
      rw [List.reverse_reverse]
      have hJhead : ∀ c, (joinSep [' '] (v :: vs')).head? = some c → isWS c = false := by
        intro c hc
        rw [joinSep_head? v vs' hvne] at hc
        exact hvhead c hc
      rw [sentGo_true_of_head_not ' ' _ hJhead]
      have hih : sentSplit (joinSep [' '] (v :: vs')) = v :: vs' := by
        apply ih (List.cons_ne_nil _ _)
        · intro w hw
          exact hcond w (List.mem_cons_of_mem _ hw)
        · intro w hw
          apply hpunct w
          rw [List.dropLast_cons₂]
          exact List.mem_cons_of_mem _ hw
      rw [show sentGo false ' ' [] (joinSep [' '] (v :: vs'))
          = sentSplit (joinSep [' '] (v :: vs')) from rfl, hih]

theorem dedupUnits_mem_strip : ∀ (ps : List Str) (seen : List Str),
    ∀ u ∈ dedupUnits seen ps, ∃ p ∈ ps, u = strip p := by
  intro ps
  induction ps with
  | nil => intro seen u hu; cases hu
  | cons v rest ih =>
    intro seen u hu
    rw [dedupUnits] at hu
    by_cases h1 : (strip v).isEmpty
    · rw [if_pos h1] at hu
      obtain ⟨p, hp, hps⟩ := ih seen u hu
      exact ⟨p, List.mem_cons_of_mem _ hp, hps⟩
    · rw [if_neg h1] at hu
      by_cases h2 : (strip v).map Char.toLower ∈ seen
      · rw [if_pos h2] at hu
        obtain ⟨p, hp, hps⟩ := ih seen u hu
        exact ⟨p, List.mem_cons_of_mem _ hp, hps⟩
      · rw [if_neg h2] at hu
        rcases List.mem_cons.mp hu with rfl | hu'
        · exact ⟨v, List.mem_cons_self _ _, rfl⟩
        · obtain ⟨p, hp, hps⟩ := ih _ u hu'
          exact ⟨p, List.mem_cons_of_mem _ hp, hps⟩

theorem dedupUnits_keys : ∀ (ps : List Str) (seen : List Str),
    ((dedupUnits seen ps).map (fun u => u.map Char.toLower)).Nodup ∧
    ∀ u ∈ dedupUnits seen ps, u.map Char.toLower ∉ seen := by
  intro ps
  induction ps with
  | nil => intro seen; exact ⟨List.nodup_nil, fun u hu => absurd hu (List.not_mem_nil u)⟩
  | cons v rest ih =>
    intro seen
    rw [dedupUnits]
    by_cases h1 : (strip v).isEmpty
    · rw [if_pos h1]; exact ih seen
    · rw [if_neg h1]
      by_cases h2 : (strip v).map Char.toLower ∈ seen
      · rw [if_pos h2]; exact ih seen
      · rw [if_neg h2]
        obtain ⟨ihnodup, ihseen⟩ := ih ((strip v).map Char.toLower :: seen)
        refine ⟨?_, ?_⟩
        · rw [List.map_cons, List.nodup_cons]
          refine ⟨?_, ihnodup⟩
          intro hmem
          obtain ⟨u, hu, hukey⟩ := List.mem_map.mp hmem
          exact (ihseen u hu) (hukey ▸ List.mem_cons_self _ _)
        · intro u hu
          rcases List.mem_cons.mp hu with rfl | hu'
          · exact h2
          · exact fun hin => (ihseen u hu') (List.mem_cons_of_mem _ hin)

theorem dedupUnits_clean : ∀ (us : List Str) (seen : List Str),
    (∀ u ∈ us, strip u = u ∧ u ≠ []) →
    ((us.map (fun u => u.map Char.toLower)).Nodup) →
    (∀ u ∈ us, u.map Char.toLower ∉ seen) →
    dedupUnits seen us = us := by
  intro us
  induction us with
  | nil => intro seen _ _ _; rfl
  | cons u rest ih =>
    intro seen hclean hnodup hseen
    obtain ⟨hstrip, hne⟩ := hclean u (List.mem_cons_self _ _)
    rw [dedupUnits]
    rw [if_neg (by rw [hstrip]; simpa [List.isEmpty_iff] using hne),
      if_neg (by rw [hstrip]; exact hseen u (List.mem_cons_self _ _))]
    rw [List.map_cons, List.nodup_cons] at hnodup
    rw [hstrip, ih ((u.map Char.toLower) :: seen)
      (fun w hw => hclean w (List.mem_cons_of_mem _ hw)) hnodup.2 ?_]
    intro w hw hin
    rcases List.mem_cons.mp hin with heq | hin'
    · exact hnodup.1 (heq ▸ List.mem_map.mpr ⟨w, hw, rfl⟩)
    · exact hseen w (List.mem_cons_of_mem _ hw) hin'

theorem dedupUnits_dropLast_punct : ∀ (ps : List Str) (seen : List Str),
    (∀ p ∈ ps.dropLast, isPunct ((strip p).getLastD ' ') = true) →
    ∀ u ∈ (dedupUnits seen ps).dropLast, isPunct (u.getLastD ' ') = true := by
  intro ps
  induction ps with
  | nil => intro seen _ u hu; cases hu
  | cons v rest ih =>
    intro seen hpre u hu
    have hpre' : ∀ p ∈ rest.dropLast, isPunct ((strip p).getLastD ' ') = true := by
      intro p hp
      apply hpre
      cases rest with
      | nil => cases hp
      | cons w rest' =>
        rw [List.dropLast_cons₂]
        exact List.mem_cons_of_mem _ hp
    rw [dedupUnits] at hu
    by_cases h1 : (strip v).isEmpty
    · rw [if_pos h1] at hu
      exact ih seen hpre' u hu
    · rw [if_neg h1] at hu
      by_cases h2 : (strip v).map Char.toLower ∈ seen
      · rw [if_pos h2] at hu
        exact ih seen hpre' u hu
      · rw [if_neg h2] at hu
        cases hD : dedupUnits ((strip v).map Char.toLower :: seen) rest with
        | nil =>
          rw [hD] at hu
          simp at hu
        | cons d ds =>
          rw [hD, List.dropLast_cons₂] at hu
          have hrest_ne : rest ≠ [] := by
            intro hnil
            rw [hnil] at hD
            simp [dedupUnits] at hD
          rcases List.mem_cons.mp hu with rfl | hu'
          · apply hpre
            cases rest with
            | nil => exact absurd rfl hrest_ne
            | cons w rest' =>
              rw [List.dropLast_cons₂]
              exact List.mem_cons_self _ _
          · rw [← hD] at hu'
            exact ih _ hpre' u hu'

/-- every non-last piece of the splitter is non-empty and ends with a
terminator character. -/
theorem sentSplit_dropLast (t : Str) :
    ∀ q ∈ (sentSplit t).dropLast, q ≠ [] ∧ isTerm (q.getLastD ' ') = true := by
  intro q hq
  cases hsp : sentSplit t with
  | nil => exact absurd hsp (sentGo_ne_nil t false ' ' [])
  | cons p ps =>
    obtain ⟨_, h2, h3⟩ := sentGo_shape t false ' ' [] p ps rfl hsp
    rw [hsp] at hq
    cases ps with
    | nil => simp at hq
    | cons p' ps' =>
      rw [List.dropLast_cons₂] at hq
      rcases List.mem_cons.mp hq with rfl | hq'
      · have hterm := h2 (List.cons_ne_nil _ _)
        have hqne : q ≠ [] := by
          intro hnil
          rw [hnil] at hterm
          simp [isTerm] at hterm
        exact ⟨hqne, hterm⟩
      · exact h3 q hq'

/-- C4 counterexample: the Deduplicator is not idempotent.  On
"a\n\nb. a b." the first pass yields "a b. a b." (the units "a", "b.",
"a b." have distinct keys), but re-splitting that output merges "a" and
"b." into a unit equal to "a b.", so a second pass collapses it to
"a b.". -/
theorem dedup_not_idempotent_cx :
    _deduplicate_sentences (_deduplicate_sentences ("a\n\nb. a b.".toList))
      ≠ _deduplicate_sentences ("a\n\nb. a b.".toList) := by decide

/-- C4 (amended): on every input containing no newline character, applying
the Deduplicator to its own output yields the same string as applying it
once.  (Without a newline every kept unit except possibly the last ends in
'.', '!' or '?', so re-splitting the joined output recovers exactly the
kept units, whose keys are already distinct.) -/
theorem dedup_idempotent_no_newline (t : Str) (h : '\n' ∉ t) :
    _deduplicate_sentences (_deduplicate_sentences t) = _deduplicate_sentences t := by
  cases hu : dedupUnits [] (sentSplit t) with
  | nil =>
    unfold _deduplicate_sentences
    rw [hu]
    rfl
  | cons u0 us0 =>
    have hmem_facts : ∀ u ∈ (u0 :: us0), u ≠ [] ∧ okRun ' ' u = true ∧
        (∀ c, u.head? = some c → isWS c = false) ∧ strip u = u := by
      intro u huin
      have huin' : u ∈ dedupUnits [] (sentSplit t) := by rw [hu]; exact huin
      have hne : u ≠ [] := dedupUnits_mem_ne_nil _ _ u huin'
      obtain ⟨p, hp, rfl⟩ := dedupUnits_mem_strip (sentSplit t) [] u huin'
      have hpok : okRun ' ' p = true :=
        sentGo_pieces_okRun t false ' ' [] rfl (by simp [okRun]) p hp
      refine ⟨hne, okRun_strip hpok, ?_, strip_idem p⟩
      intro c hc
      obtain ⟨c', hc', hw'⟩ := strip_head_not_WS hne
      rw [hc', Option.some_inj] at hc
      rw [← hc]
      exact hw'
    have hpunct : ∀ u ∈ (u0 :: us0).dropLast, isPunct (u.getLastD ' ') = true := by
      rw [← hu]
      apply dedupUnits_dropLast_punct
      intro p hp
      obtain ⟨hpne, hpterm⟩ := sentSplit_dropLast t p hp
      have hp_in : p ∈ sentSplit t :=
        (List.dropLast_sublist _).subset hp
      have hchar : p.getLastD ' ' ∈ t := by
        rcases sentGo_chars t false ' ' [] p hp_in _ (getLastD_mem hpne ' ') with h' | h'
        · cases h'
        · exact h'
      have hnn : p.getLastD ' ' ≠ '\n' := fun he => h (he ▸ hchar)
      have hpu : isPunct (p.getLastD ' ') = true := isTerm_not_newline hpterm hnn
      obtain ⟨_, hseq⟩ := strip_getLastD_of_last_not_WS hpne (isPunct_not_WS hpu)
      rw [hseq]
      exact hpu
    have hround : sentSplit (joinSep [' '] (u0 :: us0)) = u0 :: us0 :=
      sentSplit_joinSep (u0 :: us0) (List.cons_ne_nil _ _)
        (fun u huin => ⟨(hmem_facts u huin).1, (hmem_facts u huin).2.1,
          (hmem_facts u huin).2.2.1⟩)
        hpunct
    have hkeys := dedupUnits_keys (sentSplit t) []
    have hclean : dedupUnits [] (u0 :: us0) = u0 :: us0 := by
      apply dedupUnits_clean
      · intro u huin
        exact ⟨(hmem_facts u huin).2.2.2, (hmem_facts u huin).1⟩
      · rw [← hu]
        exact hkeys.1
      · intro u _
        exact List.not_mem_nil _
    unfold _deduplicate_sentences
    rw [hu, hround, hclean]

theorem dedup_idempotent_no_newline_witness :
    ('\n' ∉ "Cats purr. Cats purr. Dogs bark.".toList) ∧
    _deduplicate_sentences
        (_deduplicate_sentences ("Cats purr. Cats purr. Dogs bark.".toList))
      = _deduplicate_sentences ("Cats purr. Cats purr. Dogs bark.".toList) :=
  ⟨by decide, dedup_idempotent_no_newline _ (by decide)⟩

